import Mathlib

/-!
Shallow embedding of the `mp` fixed-capacity memory pool.

The repository contains two parallel implementations of the same component:
the CamelCase draft (`SlotStatusRegistry.hpp` / `Allocator.hpp`) and the
snake_case rewrite (`slot_status_registry.hpp` / `allocator.hpp`).  Both pack
`N` slot-occupancy bits into `unsigned int` words (32 bits each) and mirror
the number of set bits in an atomic counter.  The embedding below translates
the bodies of those headers directly:

* words are `Nat` kept below `2 ^ 32` by the bit operations themselves;
  the 32-bit counter increments/decrements are taken modulo `2 ^ 32`, and
  `size_t` subtraction is modelled modulo `2 ^ 64` (`stSub`);
* the `static` local `end` pointers in `fetch`/`reset` are modelled for a
  single registry object, where they equal `data_ + kMaxIndex`
  (resp. `data_ + N` in the snake_case `reset`);
* `constexpr` branches on `power_of_two_` compute `idx & (bits-1)` versus
  `idx % bits`; both equal `idx % 32` because the word width is 32, so the
  embedding uses `idx % bitsPerInt` throughout;
* constructors and destructors of the element type are modelled as total
  (the claims handled here never exercise the `ConstructorHasThrownException`
  / `DestructorHasThrownException` paths);
* out-of-bounds array writes cannot be given a semantics inside the state
  model; `List.set` silently drops them.  The write *addresses* issued by the
  snake_case `reset` are exposed separately (`resetWriteIndices`) so that
  their bounds can be examined.
-/

/-- `2 ^ 32`, the wrap-around modulus of the `std::atomic_uint` counter. -/
def W32 : Nat := 4294967296

/-- `2 ^ 64`, the wrap-around modulus of `size_t` arithmetic. -/
def W64 : Nat := 18446744073709551616

/-- `0xFFFFFFFF`, the value of `~0u`: `~(1u << k)` is `mask32 ^^^ (1 <<< k)`. -/
def mask32 : Nat := 4294967295

/-- `size_t` subtraction `a - b` with the C wrap-around semantics
(operands are values of `size_t`, hence reduced modulo `2 ^ 64`). -/
def stSub (a b : Nat) : Nat := (a % W64 + (W64 - b % W64)) % W64

/-- `kBitsPerInt` / `bits_per_int_`: `sizeof(unsigned int) * CHAR_BIT = 32`. -/
def bitsPerInt : Nat := 32

/-- `kDataSize` / `data_size_`: `(N + kBitsPerInt - 1u) / kBitsPerInt`. -/
def dataSize (N : Nat) : Nat := (N + (bitsPerInt - 1)) / bitsPerInt

/-- `kMaxIndex` / `max_index_`: `std::min(kDataSize, NUM_SLOTS)`. -/
def maxIndex (N : Nat) : Nat := min (dataSize N) N

/-- Error taxonomy of `mp::error` (`Ecode` in `types.hpp`; the snake_case
headers use the same codes under the names `bad_logic`, `not_initialized`,
`already_initialized`, `cannot_reserve_system_memory`,
`not_enough_space_in_allocator`, `exception_caught_in_ctor`,
`exception_caught_in_dctor`, `out_of_bounds`). -/
inductive Ecode where
  | NoError
  | InternalLogicError
  | NotInitialized
  | CannotInitializeAgain
  | UnableToAllocateMemory
  | NoFreeSpace
  | ConstructorHasThrownException
  | DestructorHasThrownException
  | BucketIndexOutOfBounds
deriving DecidableEq

/-- State of a `SlotStatusRegistry<N>` / `slot_status_registry<N>`:
the packed word array `data_` and the atomic counter
(`totalAssigned_` / `in_use_`). -/
structure Reg where
  data : List Nat
  inUse : Nat
deriving DecidableEq

/-- A freshly constructed registry: `unsigned int data_[kDataSize] = {0u}`
and a zero counter. -/
def freshReg (N : Nat) : Reg := ⟨List.replicate (dataSize N) 0, 0⟩

/-- `is_in_use(idx)`: `(data_[idx / kBitsPerInt] & (1u << (idx % kBitsPerInt))) != 0u`. -/
def isInUse (data : List Nat) (idx : Nat) : Bool :=
  (data.getD (idx / bitsPerInt) 0) &&& (1 <<< (idx % bitsPerInt)) != 0

/-- `set(idx)`: OR the bit into its word, then `fetch_add(1u)` on the 32-bit
counter. -/
def setBit (r : Reg) (idx : Nat) : Reg :=
  { data := r.data.set (idx / bitsPerInt)
      ((r.data.getD (idx / bitsPerInt) 0) ||| (1 <<< (idx % bitsPerInt))),
    inUse := (r.inUse + 1) % W32 }

/-- `unset(idx)`: AND the complemented mask into its word, then
`fetch_sub(1u)` on the 32-bit counter. -/
def unsetBit (r : Reg) (idx : Nat) : Reg :=
  { data := r.data.set (idx / bitsPerInt)
      ((r.data.getD (idx / bitsPerInt) 0) &&& (mask32 ^^^ (1 <<< (idx % bitsPerInt)))),
    inUse := (r.inUse + (W32 - 1)) % W32 }

/-- The scan loop shared by both `fetch` implementations.  `steps` is the
number of remaining loop iterations (`end - it`, both pointers advance once
per iteration), `idx` the current bit index, `acc` the `freeIndexes` vector.
Each free bit found is set immediately; the loop breaks once `acc` reaches
`qty` elements. -/
def scan (qty : Nat) : Nat → Nat → List Nat → Reg → List Nat × Reg
  | 0, _, acc, r => (acc, r)
  | steps + 1, idx, acc, r =>
    if isInUse r.data idx then
      scan qty steps (idx + 1) acc r
    else
      let r' := setBit r idx
      let acc' := acc ++ [idx]
      if acc'.length = qty then (acc', r')
      else scan qty steps (idx + 1) acc' r'

/-- `slot_status_registry<N>::fetch(qty)`: pre-check
`qty <= N - in_use_` (in `size_t` arithmetic), then scan `max_index_`
iterations from index 0; a shortfall after the scan yields `bad_logic`
(`InternalLogicError`). -/
def snakeFetch (N : Nat) (r : Reg) (qty : Nat) : Except Ecode (List Nat) × Reg :=
  if ¬ (qty ≤ stSub N r.inUse) then (Except.error Ecode.NoFreeSpace, r)
  else
    let res := scan qty (maxIndex N) 0 [] r
    if res.1.length ≠ qty then (Except.error Ecode.InternalLogicError, res.2)
    else (Except.ok res.1, res.2)

/-- `slot_status_registry<N>::release(idx)`: clear only an in-range,
currently used bit. -/
def snakeRelease (N : Nat) (r : Reg) (idx : Nat) : Reg :=
  if idx < N ∧ isInUse r.data idx then unsetBit r idx else r

/-- The word offsets written by `slot_status_registry<N>::reset()`:
`it` runs from `data_` to `data_ + N`, so offsets `0, …, N - 1` are written
(the array only has `data_size_` words; see C10). -/
def resetWriteIndices (N : Nat) : List Nat := List.range N

/-- `slot_status_registry<N>::reset()`: zero the words at
`resetWriteIndices`; the counter `in_use_` is not touched by the source.
Writes past the array length are dropped by `List.set` (in the C++ they are
out-of-bounds stores, see C10). -/
def snakeReset (N : Nat) (r : Reg) : Reg :=
  { data := (resetWriteIndices N).foldl (fun d i => d.set i 0) r.data,
    inUse := r.inUse }

/-- `status()` result type (`Status` / `status_t`). -/
structure Status where
  used : Nat
  free : Nat
deriving DecidableEq

/-- `slot_status_registry<N>::status()`:
`{used = in_use_, free = N - in_use_}` in `size_t` arithmetic. -/
def snakeStatus (N : Nat) (r : Reg) : Status := ⟨r.inUse, stSub N r.inUse⟩

/-- `SlotStatusRegistry<N>::status()`:
`{used = totalAssigned_, free = kMaxIndex - totalAssigned_}` — note the
CamelCase draft subtracts from `kMaxIndex`, not from `N`. -/
def camelStatus (N : Nat) (r : Reg) : Status := ⟨r.inUse, stSub (maxIndex N) r.inUse⟩

/-- Population count of one 32-bit word. -/
def wordPop (w : Nat) : Nat := (List.range bitsPerInt).countP (fun k => (w >>> k) % 2 == 1)

/-- Population count of the whole bitmap. -/
def bitmapPop (data : List Nat) : Nat := (data.map wordPop).sum

/-- Number of free (clear) bits among indices `idx, …, idx + steps - 1`. -/
def countFreeRange (r : Reg) : Nat → Nat → Nat
  | _, 0 => 0
  | idx, steps + 1 =>
    (if isInUse r.data idx then 0 else 1) + countFreeRange r (idx + 1) steps

/-- State of an `allocator<T, N>` / `Allocator<T, N>`: its registry, the
acquire/release `initialized_` flag, and the backing storage (one `T` value
per slot; raw never-constructed bytes are represented by whatever value the
list holds, which the claims never observe). -/
structure AllocState (τ : Type) where
  reg : Reg
  initialized : Bool
  storage : List τ

/-- A freshly constructed allocator: fresh registry, `initialized_ = false`,
`storage_ = nullptr`. -/
def freshAllocState (τ : Type) (N : Nat) : AllocState τ := ⟨freshReg N, false, []⟩

/-- `allocator<T, N>::status()` delegates to the registry. -/
def allocStatus {τ : Type} (N : Nat) (st : AllocState τ) : Status := snakeStatus N st.reg

/-- `allocator<T, N>::allocate(args...)`: slot `i` lives at address
`base + sz * i` (`&storage_[i]`).  On fetch success the single returned index
is read with `.at(0)` (an empty vector would raise `std::out_of_range`,
reported as `bad_logic`); construction stores `v`.  When `fetch` fails its
error is discarded and the final `return … bad_logic` (`InternalLogicError`)
is taken, with the registry keeping whatever `fetch` left behind. -/
def allocate {τ : Type} (N base sz : Nat) (st : AllocState τ) (v : τ) :
    Except Ecode Nat × AllocState τ :=
  if st.initialized = false then (Except.error Ecode.NotInitialized, st)
  else
    match snakeFetch N st.reg 1 with
    | (Except.ok idxs, r') =>
      match idxs.head? with
      | some i => (Except.ok (base + sz * i), { st with reg := r', storage := st.storage.set i v })
      | none => (Except.error Ecode.InternalLogicError, { st with reg := r' })
    | (Except.error _, r') => (Except.error Ecode.InternalLogicError, { st with reg := r' })

/-- `bucket<T*, K>` / `Bucket<TYPE, CAPACITY>`: the inserted handles in
insertion order (`data_[0 .. size_-1]`); the capacity is passed to the
operations that need it. -/
structure Bucket (α : Type) where
  data : List α
deriving DecidableEq

/-- A default-constructed bucket: `size_ = 0`. -/
def emptyBucket (α : Type) : Bucket α := ⟨[]⟩

/-- `bucket::push_back(slot)`: append below capacity and report `true`,
otherwise leave the bucket unchanged and report `false`. -/
def pushBack {α : Type} (cap : Nat) (b : Bucket α) (x : α) : Bool × Bucket α :=
  if b.data.length < cap then (true, ⟨b.data ++ [x]⟩) else (false, b)

/-- `bucket::operator[](idx)`: `idx >= size_` yields `out_of_bounds`
(`BucketIndexOutOfBounds`), otherwise the stored handle `data_[idx]` is
returned; the function reads the bucket and cannot modify it. -/
def bucketGet {α : Type} (b : Bucket α) (idx : Nat) : Except Ecode α :=
  if h : idx < b.data.length then Except.ok (b.data.get ⟨idx, h⟩)
  else Except.error Ecode.BucketIndexOutOfBounds

/-- Iterated `push_back` of a whole list, reporting whether every push
succeeded (the harness for "handles inserted at construction time"). -/
def pushAll {α : Type} (cap : Nat) : Bucket α → List α → Bucket α × Bool
  | b, [] => (b, true)
  | b, x :: xs =>
    match pushBack cap b x with
    | (true, b') => pushAll cap b' xs
    | (false, b') => (b', false)

/-- The construction loop of `allocator<T, N>::allocate_bucket`:
default-construct at each fetched index and push the handle; a failing push
aborts with `bad_logic` (`InternalLogicError`). -/
def constructAll {τ : Type} (base sz : Nat) (d : τ) (cap : Nat) :
    List Nat → AllocState τ → Bucket Nat → Except Ecode (Bucket Nat) × AllocState τ
  | [], st, b => (Except.ok b, st)
  | i :: rest, st, b =>
    let st' := { st with storage := st.storage.set i d }
    match pushBack cap b (base + sz * i) with
    | (true, b') => constructAll base sz d cap rest st' b'
    | (false, _) => (Except.error Ecode.InternalLogicError, st')

/-- `allocator<T, N>::allocate_bucket<SIZE>()`: note that the source body
calls `registry_.fetch(NAlloc)` — the pool capacity `N`, not `SIZE` — and
builds a `bucket<T*, NAlloc>` of capacity `N`; the template argument `SIZE`
is used only in the `requires(SIZE > 0)` clause.  Any `fetch` error is
reported as `not_enough_space_in_allocator` (`NoFreeSpace`), keeping the
registry state `fetch` left behind.  `d` is the default-constructed value
of the element type. -/
def allocBucket {τ : Type} (N SIZE base sz : Nat) (d : τ) (st : AllocState τ) :
    Except Ecode (Bucket Nat) × AllocState τ :=
  if st.initialized = false then (Except.error Ecode.NotInitialized, st)
  else
    match SIZE, snakeFetch N st.reg N with
    | _, (Except.ok frees, r') =>
      constructAll base sz d N frees { st with reg := r' } (emptyBucket Nat)
    | _, (Except.error _, r') => (Except.error Ecode.NoFreeSpace, { st with reg := r' })

/-- The slot-matching loop of `allocator<T, N>::deallocate(T*)`: every index
`0 … N-1` is compared against the address; a match destroys the object,
assigns a fresh default `d`, and releases the slot.  The loop has no break. -/
def deallocScan {τ : Type} (N base sz : Nat) (d : τ) (a : Nat) :
    List Nat → AllocState τ → AllocState τ
  | [], st => st
  | i :: rest, st =>
    if a = base + sz * i then
      deallocScan N base sz d a rest
        { st with storage := st.storage.set i d, reg := snakeRelease N st.reg i }
    else deallocScan N base sz d a rest st

/-- `allocator<T, N>::deallocate(T* allocated)`: after the scan of all `N`
slot addresses the function returns `true` (the destructor is modelled as
non-throwing). -/
def deallocate {τ : Type} (N base sz : Nat) (d : τ) (st : AllocState τ) (a : Nat) :
    Except Ecode Bool × AllocState τ :=
  if st.initialized = false then (Except.error Ecode.NotInitialized, st)
  else (Except.ok true, deallocScan N base sz d a (List.range N) st)

/-- C1's concrete registry: capacity 10, indices {0,1,4,6,8} used
(word value `1 + 2 + 16 + 64 + 256 = 339`), {2,3,5,7,9} free, counter 5. -/
def c1Reg : Reg := ⟨[339], 5⟩

/-- C2's concrete allocator: capacity 5, initialized, all slots free. -/
def c2State : AllocState Nat := ⟨⟨[0], 0⟩, true, [0, 0, 0, 0, 0]⟩

/-- C3's concrete allocator: capacity 1, initialized, slot free. -/
def c3State : AllocState Nat := ⟨⟨[0], 0⟩, true, [0]⟩

/-- Registry of capacity 1 after one successful `fetch()`: bit 0 set,
counter 1. -/
def regAfterOneFetch : Reg := (snakeFetch 1 (freshReg 1) 1).2

/-- C7's concrete allocator: capacity 2, initialized, all slots free. -/
def c7State : AllocState Nat := ⟨⟨[0], 0⟩, true, [0, 0]⟩

/-- C1: the spec says `fetch(qty)` scans all `N` slots and, for capacity 10
with free indices {2,3,5,7,9}, `fetch(4)` returns `[2,3,5,7]`.  The source's
scan loop advances the word pointer `it` once per *bit* index, so it covers
only `min(⌈N/32⌉, N) = 1` index for `N = 10`: on the claimed input the call
returns `bad_logic` (`InternalLogicError`) instead of `[2,3,5,7]`. -/
theorem c1_fetch_scan_truncated_eval :
    (∀ j ∈ ([2, 3, 5, 7, 9] : List Nat), isInUse c1Reg.data j = false) ∧
    (∀ j ∈ ([0, 1, 4, 6, 8] : List Nat), isInUse c1Reg.data j = true) ∧
    c1Reg.inUse = 5 ∧ maxIndex 10 = 1 ∧
    (snakeFetch 10 c1Reg 4).1 = Except.error Ecode.InternalLogicError := by
  refine ⟨by decide, by decide, rfl, rfl, rfl⟩

/-- C2: the spec says `allocate_bucket(K)` with `K ≤ free` returns `K`
handles, and a `K > free` rejection leaves `status()` unchanged.  On a fresh
initialized capacity-5 allocator, `allocate_bucket<3>()` fetches `N = 5`
indices (the source passes `NAlloc`, not `SIZE`), the truncated scan finds
only index 0, and the call fails with `NoFreeSpace` while marking slot 0
used — `status()` moves from `{0, 5}` to `{1, 4}`. -/
theorem c2_allocate_bucket_rejects_available_eval :
    (allocBucket 5 3 0 1 (0 : Nat) c2State).1 = Except.error Ecode.NoFreeSpace ∧
    snakeStatus 5 ((allocBucket 5 3 0 1 (0 : Nat) c2State).2).reg = ⟨1, 4⟩ ∧
    snakeStatus 5 c2State.reg = ⟨0, 5⟩ := by
  refine ⟨rfl, rfl, rfl⟩

/-- C3: the spec says exhaustion maps to `NoFreeSpace`.  For `N = 1` the
first `allocate()` succeeds, but on the second the registry's `NoFreeSpace`
is discarded by `allocate` and the final `return … bad_logic`
(`InternalLogicError`) is reported instead. -/
theorem c3_allocate_exhausted_wrong_code_eval :
    (allocate 1 100 4 c3State (7 : Nat)).1 = Except.ok 100 ∧
    (allocate 1 100 4 (allocate 1 100 4 c3State (7 : Nat)).2 (8 : Nat)).1 =
      Except.error Ecode.InternalLogicError := by
  refine ⟨rfl, rfl⟩

/-- C4 counterexample: the claim says every registry/allocator reports
`free = N - used`, in particular a fresh `Allocator<T,10>` reports
`{used 0, free 10}`.  The CamelCase `SlotStatusRegistry<10>::status()`
computes `free = kMaxIndex - used = min(⌈10/32⌉, 10) - 0 = 1`. -/
theorem c4_camel_status_counterexample :
    camelStatus 10 (freshReg 10) = ⟨0, 1⟩ ∧ (⟨0, 1⟩ : Status) ≠ ⟨0, 10⟩ := by
  refine ⟨rfl, by decide⟩

/-- C5: the spec invariant `used-count = popcount(bitmap)` is preserved by
`fetch` and `release` but not by `reset`: on capacity 1, after one `fetch()`
the invariant holds (`1 = 1`), and `reset()` clears the bit while leaving
the counter at 1. -/
theorem c5_reset_breaks_popcount_invariant_eval :
    bitmapPop regAfterOneFetch.data = regAfterOneFetch.inUse ∧
    bitmapPop ((snakeReset 1 regAfterOneFetch).data) = 0 ∧
    (snakeReset 1 regAfterOneFetch).inUse = 1 := by
  refine ⟨rfl, rfl, rfl⟩

/-- C6: the spec says `reset()` always restores `{used 0, free N}`.  The
source zeroes the bitmap words but never stores 0 into the atomic counter,
so after one `fetch()` on capacity 1 a `reset()` leaves
`status() = {used 1, free 0}`. -/
theorem c6_reset_keeps_used_count_eval :
    snakeStatus 1 (snakeReset 1 regAfterOneFetch) = ⟨1, 0⟩ ∧
    (⟨1, 0⟩ : Status) ≠ ⟨0, 1⟩ := by
  refine ⟨rfl, by decide⟩

/-- C10: the claim says every word write of `reset()` lands below the array
length `⌈N/32⌉`.  The snake_case `reset` iterates `it` from `data_` to
`data_ + N`, writing offsets `0 … N-1`; for `N = 10` the array holds 1 word
and offsets 1 … 9 are out of bounds. -/
theorem c10_reset_writes_out_of_bounds_eval :
    dataSize 10 = 1 ∧ (9 : Nat) ∈ resetWriteIndices 10 ∧
    ¬ (∀ i ∈ resetWriteIndices 10, i < dataSize 10) := by
  decide

/-- Reading a word just written: `(l.set w v).getD w 0 = v` in bounds. -/
theorem getD_set_same (l : List Nat) (w v : Nat) (h : w < l.length) :
    (l.set w v).getD w 0 = v := by
  simp [List.getD_eq_getElem?_getD, List.getElem?_set_self h]

/-- Reading a different word than the one written. -/
theorem getD_set_other (l : List Nat) (w v j : Nat) (h : w ≠ j) :
    (l.set w v).getD j 0 = l.getD j 0 := by
  simp [List.getD_eq_getElem?_getD, List.getElem?_set_ne h]

/-- `is_in_use` is the `testBit` of the slot's word at the slot's bit. -/
theorem isInUse_eq_testBit (data : List Nat) (i : Nat) :
    isInUse data i = (data.getD (i / bitsPerInt) 0).testBit (i % bitsPerInt) := by
  unfold isInUse
  rw [Nat.one_shiftLeft, Nat.and_two_pow]
  cases h : (data.getD (i / bitsPerInt) 0).testBit (i % bitsPerInt) <;>
    simp [h, (Nat.two_pow_pos (i % bitsPerInt)).ne']

/-- The no-match pass of the deallocation loop leaves the state untouched. -/
theorem deallocScan_no_match {τ : Type} (N base sz : Nat) (d : τ) (a : Nat) :
    ∀ (l : List Nat) (st : AllocState τ), (∀ i ∈ l, a ≠ base + sz * i) →
      deallocScan N base sz d a l st = st := by
  intro l
  induction l with
  | nil => intro st _; rfl
  | cons i rest ih =>
    intro st h
    have hi : a ≠ base + sz * i := h i (List.mem_cons_self i rest)
    rw [deallocScan, if_neg hi]
    exact ih st (fun j hj => h j (List.mem_cons_of_mem i hj))

/-- C7: on an initialized allocator, `deallocate(address)` for an address
matching none of the `N` slot addresses `base + sz * i` reports success and
returns the state unchanged — no registry bit cleared, no storage cell
overwritten, so `status()` is unchanged as well. -/
theorem c7_deallocate_foreign_address_noop (τ : Type) (N base sz : Nat) (d : τ)
    (st : AllocState τ) (a : Nat)
    (hinit : st.initialized = true)
    (hforeign : ∀ i, i < N → a ≠ base + sz * i) :
    deallocate N base sz d st a = (Except.ok true, st) := by
  unfold deallocate
  rw [hinit, if_neg (by decide)]
  rw [deallocScan_no_match N base sz d a (List.range N) st
    (fun i hi => hforeign i (List.mem_range.mp hi))]

/-- Witness for C7 at a concrete input: capacity 2, slots at addresses 100
and 104, foreign address 5. -/
theorem c7_deallocate_foreign_address_noop_witness :
    deallocate 2 100 4 (0 : Nat) c7State 5 = (Except.ok true, c7State) :=
  c7_deallocate_foreign_address_noop Nat 2 100 4 0 c7State 5 rfl (by decide)

/-- A run of `push_back`s that fits in the capacity succeeds throughout and
stores the pushed values in insertion order after the existing ones. -/
theorem pushAll_all_fit {α : Type} (cap : Nat) :
    ∀ (xs : List α) (b : Bucket α), b.data.length + xs.length ≤ cap →
      pushAll cap b xs = (⟨b.data ++ xs⟩, true) := by
  intro xs
  induction xs with
  | nil => intro b _; simp [pushAll]
  | cons x rest ih =>
    intro b h
    have hlt : b.data.length < cap := by
      simp only [List.length_cons] at h
      omega
    have hpb : pushBack cap b x = (true, ⟨b.data ++ [x]⟩) := by
      simp [pushBack, hlt]
    simp only [pushAll, hpb]
    rw [ih ⟨b.data ++ [x]⟩ (by
      show (b.data ++ [x]).length + rest.length ≤ cap
      simp only [List.length_append, List.length_singleton, List.length_cons,
        List.length_nil] at h ⊢
      omega)]
    simp [List.append_assoc]

/-- C8: a bucket built by inserting the sequence `xs` (all pushes succeed
when `xs` fits the capacity) answers indexed access at `idx < size` with
exactly the element inserted at position `idx`, and at `idx ≥ size` with
`BucketIndexOutOfBounds`; access is a pure read and cannot modify the
bucket. -/
theorem c8_bucket_indexed_access (α : Type) (cap : Nat) (xs : List α) (idx : Nat)
    (hcap : xs.length ≤ cap) :
    pushAll cap (emptyBucket α) xs = (⟨xs⟩, true) ∧
    (∀ h : idx < xs.length, bucketGet (⟨xs⟩ : Bucket α) idx = Except.ok (xs.get ⟨idx, h⟩)) ∧
    (xs.length ≤ idx → bucketGet (⟨xs⟩ : Bucket α) idx = Except.error Ecode.BucketIndexOutOfBounds) := by
  refine ⟨?_, ?_, ?_⟩
  · have h0 : (emptyBucket α).data.length + xs.length ≤ cap := by
      simpa [emptyBucket] using hcap
    simpa [emptyBucket] using pushAll_all_fit cap xs (emptyBucket α) h0
  · intro h
    unfold bucketGet
    rw [dif_pos h]
  · intro h
    unfold bucketGet
    have h' : ¬ idx < ((⟨xs⟩ : Bucket α).data).length := by
      show ¬ idx < xs.length
      omega
    rw [dif_neg h']

/-- Witness for C8 at a concrete input: capacity 3, inserted handles
`[10, 20]`, in-range access at 1 and out-of-range access at 2. -/
theorem c8_bucket_indexed_access_witness :
    ([10, 20] : List Nat).length ≤ 3 ∧
    bucketGet (⟨[10, 20]⟩ : Bucket Nat) 1 = Except.ok 20 ∧
    bucketGet (⟨[10, 20]⟩ : Bucket Nat) 2 = Except.error Ecode.BucketIndexOutOfBounds :=
  ⟨by decide,
   (c8_bucket_indexed_access Nat 3 [10, 20] 1 (by decide)).2.1 (by decide),
   (c8_bucket_indexed_access Nat 3 [10, 20] 2 (by decide)).2.2 (by decide)⟩

/-- `size_t` subtraction agrees with truncated subtraction below `2 ^ 64`. -/
theorem stSub_eq_sub (a b : Nat) (hb : b ≤ a) (ha : a < W64) : stSub a b = a - b := by
  unfold stSub
  rw [Nat.mod_eq_of_lt ha, Nat.mod_eq_of_lt (lt_of_le_of_lt hb ha)]
  have h1 : a + (W64 - b) = (a - b) + W64 := by
    have hbW : b ≤ W64 := le_of_lt (lt_of_le_of_lt hb ha)
    omega
  rw [h1, Nat.add_mod_right]
  exact Nat.mod_eq_of_lt (by omega)

/-- C4 amended: the snake_case registry satisfies the claim — in every state
whose counter does not exceed the capacity, `status()` is
`{used = counter, free = N - counter}`, and a freshly constructed snake_case
allocator reports `{used 0, free N}`.  (The CamelCase `SlotStatusRegistry`
violates the claim: see the counterexample.) -/
theorem c4_snake_status_amended (τ : Type) (N : Nat) (r : Reg)
    (hN : N < W64) (hused : r.inUse ≤ N) :
    snakeStatus N r = ⟨r.inUse, N - r.inUse⟩ ∧
    allocStatus N (freshAllocState τ N) = ⟨0, N⟩ := by
  constructor
  · unfold snakeStatus
    rw [stSub_eq_sub N r.inUse hused hN]
  · have hfresh : allocStatus N (freshAllocState τ N) = ⟨0, stSub N 0⟩ := rfl
    rw [hfresh, stSub_eq_sub N 0 (Nat.zero_le N) hN, Nat.sub_zero]

/-- Witness for C4's amended statement at `N = 10` and the one-word registry
`⟨[0], 0⟩`. -/
theorem c4_snake_status_amended_witness :
    10 < W64 ∧ (Reg.mk [0] 0).inUse ≤ 10 ∧
    (snakeStatus 10 (Reg.mk [0] 0) = ⟨0, 10⟩ ∧
      allocStatus 10 (freshAllocState Nat 10) = ⟨0, 10⟩) :=
  ⟨by decide, by decide, by
    have h := c4_snake_status_amended Nat 10 (Reg.mk [0] 0) (by decide) (by decide)
    exact ⟨h.1, h.2⟩⟩

/-- `set` keeps the word-array length. -/
theorem setBit_data_length (r : Reg) (i : Nat) : (setBit r i).data.length = r.data.length := by
  simp [setBit]

/-- The bit just set reads back as used (its word being in bounds). -/
theorem isInUse_setBit_self (r : Reg) (i : Nat) (h : i / bitsPerInt < r.data.length) :
    isInUse (setBit r i).data i = true := by
  rw [isInUse_eq_testBit]
  show ((r.data.set (i / bitsPerInt)
      ((r.data.getD (i / bitsPerInt) 0) ||| (1 <<< (i % bitsPerInt)))).getD
      (i / bitsPerInt) 0).testBit (i % bitsPerInt) = true
  rw [getD_set_same _ _ _ h, Nat.one_shiftLeft, Nat.testBit_or,
    Nat.testBit_two_pow_self]
  simp

/-- `set` never clears a bit: a used bit stays used. -/
theorem isInUse_setBit_mono (r : Reg) (i j : Nat) (h : isInUse r.data j = true) :
    isInUse (setBit r i).data j = true := by
  rw [isInUse_eq_testBit] at h ⊢
  show ((r.data.set (i / bitsPerInt)
      ((r.data.getD (i / bitsPerInt) 0) ||| (1 <<< (i % bitsPerInt)))).getD
      (j / bitsPerInt) 0).testBit (j % bitsPerInt) = true
  by_cases hw : i / bitsPerInt = j / bitsPerInt
  · by_cases hlen : i / bitsPerInt < r.data.length
    · rw [← hw, getD_set_same _ _ _ hlen, Nat.one_shiftLeft, Nat.testBit_or]
      rw [← hw] at h
      rw [h, Bool.true_or]
    · rw [List.set_eq_of_length_le (Nat.le_of_not_lt hlen)]
      exact h
  · rw [getD_set_other _ _ _ _ hw]
    exact h

/-- `set` touches only its own bit: any other bit keeps its value. -/
theorem isInUse_setBit_other (r : Reg) (i j : Nat) (hne : j ≠ i) :
    isInUse (setBit r i).data j = isInUse r.data j := by
  rw [isInUse_eq_testBit, isInUse_eq_testBit]
  show ((r.data.set (i / bitsPerInt)
      ((r.data.getD (i / bitsPerInt) 0) ||| (1 <<< (i % bitsPerInt)))).getD
      (j / bitsPerInt) 0).testBit (j % bitsPerInt) = _
  by_cases hw : i / bitsPerInt = j / bitsPerInt
  · by_cases hlen : i / bitsPerInt < r.data.length
    · have hb : i % bitsPerInt ≠ j % bitsPerInt := by
        intro he
        apply hne
        calc j = bitsPerInt * (j / bitsPerInt) + j % bitsPerInt :=
              (Nat.div_add_mod j bitsPerInt).symm
          _ = bitsPerInt * (i / bitsPerInt) + i % bitsPerInt := by rw [← hw, ← he]
          _ = i := Nat.div_add_mod i bitsPerInt
      rw [← hw, getD_set_same _ _ _ hlen, Nat.one_shiftLeft, Nat.testBit_or,
        Nat.testBit_two_pow_of_ne hb]
      simp
    · rw [List.set_eq_of_length_le (Nat.le_of_not_lt hlen)]
  · rw [getD_set_other _ _ _ _ hw]

/-- The scan keeps the word-array length. -/
theorem scan_data_length (qty : Nat) :
    ∀ (steps idx : Nat) (acc : List Nat) (r : Reg),
      ((scan qty steps idx acc r).2).data.length = r.data.length := by
  intro steps
  induction steps with
  | zero => intro idx acc r; rfl
  | succ n ih =>
    intro idx acc r
    simp only [scan]
    by_cases h : isInUse r.data idx
    · rw [if_pos h]
      exact ih (idx + 1) acc r
    · rw [if_neg h]
      by_cases hb : (acc ++ [idx]).length = qty
      · rw [if_pos hb]
        exact setBit_data_length r idx
      · rw [if_neg hb]
        rw [ih (idx + 1) (acc ++ [idx]) (setBit r idx)]
        exact setBit_data_length r idx

/-- The scan only sets bits: a used bit stays used through the whole scan. -/
theorem scan_mono (qty : Nat) :
    ∀ (steps idx : Nat) (acc : List Nat) (r : Reg) (j : Nat),
      isInUse r.data j = true →
      isInUse ((scan qty steps idx acc r).2).data j = true := by
  intro steps
  induction steps with
  | zero => intro idx acc r j h; exact h
  | succ n ih =>
    intro idx acc r j h
    simp only [scan]
    by_cases hc : isInUse r.data idx
    · rw [if_pos hc]
      exact ih (idx + 1) acc r j h
    · rw [if_neg hc]
      by_cases hb : (acc ++ [idx]).length = qty
      · rw [if_pos hb]
        exact isInUse_setBit_mono r idx j h
      · rw [if_neg hb]
        exact ih (idx + 1) (acc ++ [idx]) (setBit r idx) j (isInUse_setBit_mono r idx j h)

/-- The scan never shrinks the accumulated index list. -/
theorem scan_acc_length_le (qty : Nat) :
    ∀ (steps idx : Nat) (acc : List Nat) (r : Reg),
      acc.length ≤ (scan qty steps idx acc r).1.length := by
  intro steps
  induction steps with
  | zero => intro idx acc r; exact Nat.le_refl _
  | succ n ih =>
    intro idx acc r
    simp only [scan]
    by_cases hc : isInUse r.data idx
    · rw [if_pos hc]
      exact ih (idx + 1) acc r
    · rw [if_neg hc]
      by_cases hb : (acc ++ [idx]).length = qty
      · rw [if_pos hb]
        simp
      · rw [if_neg hb]
        calc acc.length ≤ (acc ++ [idx]).length := by simp
          _ ≤ _ := ih (idx + 1) (acc ++ [idx]) (setBit r idx)

/-- Each index the scan collects increments the 32-bit counter once: the
final counter is the initial one plus the number of collected indices,
modulo `2 ^ 32`. -/
theorem scan_inUse (qty : Nat) :
    ∀ (steps idx : Nat) (acc : List Nat) (r : Reg), r.inUse < W32 →
      ((scan qty steps idx acc r).2).inUse =
        (r.inUse + ((scan qty steps idx acc r).1.length - acc.length)) % W32 := by
  intro steps
  induction steps with
  | zero =>
    intro idx acc r hr
    simp only [scan, Nat.sub_self, Nat.add_zero]
    exact (Nat.mod_eq_of_lt hr).symm
  | succ n ih =>
    intro idx acc r hr
    simp only [scan]
    by_cases hc : isInUse r.data idx
    · rw [if_pos hc]
      exact ih (idx + 1) acc r hr
    · rw [if_neg hc]
      by_cases hb : (acc ++ [idx]).length = qty
      · rw [if_pos hb]
        show (r.inUse + 1) % W32 = (r.inUse + ((acc ++ [idx]).length - acc.length)) % W32
        simp [List.length_append]
      · rw [if_neg hb]
        have hr' : (setBit r idx).inUse < W32 := by
          show (r.inUse + 1) % W32 < W32
          exact Nat.mod_lt _ (by decide)
        rw [ih (idx + 1) (acc ++ [idx]) (setBit r idx) hr']
        have hge : (acc ++ [idx]).length ≤
            (scan qty n (idx + 1) (acc ++ [idx]) (setBit r idx)).1.length :=
          scan_acc_length_le qty n (idx + 1) (acc ++ [idx]) (setBit r idx)
        show ((r.inUse + 1) % W32 + _) % W32 = _
        rw [Nat.mod_add_mod]
        congr 1
        simp only [List.length_append, List.length_singleton] at hge ⊢
        omega

/-- Setting a bit strictly below a range leaves the range's free count
unchanged. -/
theorem countFreeRange_setBit_lt (r : Reg) (i : Nat) :
    ∀ (steps idx : Nat), i < idx →
      countFreeRange (setBit r i) idx steps = countFreeRange r idx steps := by
  intro steps
  induction steps with
  | zero => intro idx _; rfl
  | succ n ih =>
    intro idx hi
    simp only [countFreeRange]
    rw [isInUse_setBit_other r i idx (by omega), ih (idx + 1) (by omega)]

/-- If the scan ends with a shortfall (the defensive-check failure path),
the break was never taken, so every index of the scanned range was either
already used or has been marked used. -/
theorem scan_no_break_marks (qty : Nat) :
    ∀ (steps idx : Nat) (acc : List Nat) (r : Reg),
      (scan qty steps idx acc r).1.length ≠ qty →
      ∀ j, idx ≤ j → j < idx + steps → j / bitsPerInt < r.data.length →
        isInUse ((scan qty steps idx acc r).2).data j = true := by
  intro steps
  induction steps with
  | zero =>
    intro idx acc r _ j h1 h2 _
    omega
  | succ n ih =>
    intro idx acc r hne j h1 h2 h3
    simp only [scan] at hne ⊢
    by_cases hc : isInUse r.data idx
    · rw [if_pos hc] at hne ⊢
      rcases Nat.eq_or_lt_of_le h1 with he | hlt
      · exact scan_mono qty n (idx + 1) acc r j (he ▸ hc)
      · exact ih (idx + 1) acc r hne j hlt (by omega) h3
    · rw [if_neg hc] at hne ⊢
      by_cases hb : (acc ++ [idx]).length = qty
      · rw [if_pos hb] at hne
        exact absurd hb hne
      · rw [if_neg hb] at hne ⊢
        rcases Nat.eq_or_lt_of_le h1 with he | hlt
        · subst he
          exact scan_mono qty n (idx + 1) (acc ++ [idx]) (setBit r idx) idx
            (isInUse_setBit_self r idx h3)
        · exact ih (idx + 1) (acc ++ [idx]) (setBit r idx) hne j hlt (by omega)
            (by rw [setBit_data_length]; exact h3)

/-- On the shortfall path the scan collected exactly the free indices of the
scanned range. -/
theorem scan_no_break_count (qty : Nat) :
    ∀ (steps idx : Nat) (acc : List Nat) (r : Reg),
      (scan qty steps idx acc r).1.length ≠ qty →
      (scan qty steps idx acc r).1.length = acc.length + countFreeRange r idx steps := by
  intro steps
  induction steps with
  | zero => intro idx acc r _; simp [scan, countFreeRange]
  | succ n ih =>
    intro idx acc r hne
    simp only [scan] at hne ⊢
    by_cases hc : isInUse r.data idx
    · rw [if_pos hc] at hne ⊢
      rw [ih (idx + 1) acc r hne]
      simp only [countFreeRange]
      rw [if_pos hc]
      omega
    · rw [if_neg hc] at hne ⊢
      by_cases hb : (acc ++ [idx]).length = qty
      · rw [if_pos hb] at hne
        exact absurd hb hne
      · rw [if_neg hb] at hne ⊢
        rw [ih (idx + 1) (acc ++ [idx]) (setBit r idx) hne,
          countFreeRange_setBit_lt r idx n (idx + 1) (by omega)]
        simp only [countFreeRange, List.length_append, List.length_singleton]
        rw [if_neg hc]
        omega

/-- With `qty = 0` the break condition `acc.length = 0` can never fire after
a push, so the scan runs over the whole range and collects every free index. -/
theorem scan_qty_zero_count :
    ∀ (steps idx : Nat) (acc : List Nat) (r : Reg),
      (scan 0 steps idx acc r).1.length = acc.length + countFreeRange r idx steps := by
  intro steps
  induction steps with
  | zero => intro idx acc r; simp [scan, countFreeRange]
  | succ n ih =>
    intro idx acc r
    simp only [scan]
    by_cases hc : isInUse r.data idx
    · rw [if_pos hc]
      rw [ih (idx + 1) acc r]
      simp only [countFreeRange]
      rw [if_pos hc]
      omega
    · rw [if_neg hc]
      have hb : ¬ ((acc ++ [idx]).length = 0) := by simp
      rw [if_neg hb]
      rw [ih (idx + 1) (acc ++ [idx]) (setBit r idx),
        countFreeRange_setBit_lt r idx n (idx + 1) (by omega)]
      simp only [countFreeRange, List.length_append, List.length_singleton]
      rw [if_neg hc]
      omega

/-- A range containing a free index has a positive free count. -/
theorem countFreeRange_pos (r : Reg) :
    ∀ (steps idx : Nat),
      (∃ j, idx ≤ j ∧ j < idx + steps ∧ isInUse r.data j = false) →
      0 < countFreeRange r idx steps := by
  intro steps
  induction steps with
  | zero =>
    intro idx ⟨j, h1, h2, _⟩
    omega
  | succ n ih =>
    intro idx ⟨j, h1, h2, h3⟩
    simp only [countFreeRange]
    by_cases hc : isInUse r.data idx
    · rw [if_pos hc]
      have hj : idx + 1 ≤ j := by
        rcases Nat.eq_or_lt_of_le h1 with he | hlt
        · exact absurd (he ▸ hc) (by simp [h3])
        · omega
      have := ih (idx + 1) ⟨j, hj, by omega, h3⟩
      omega
    · rw [if_neg hc]
      omega

/-- The branch structure of `snakeFetch`, with the intermediate `let`
expanded. -/
theorem snakeFetch_eq (N : Nat) (r : Reg) (qty : Nat) :
    snakeFetch N r qty =
      if ¬ (qty ≤ stSub N r.inUse) then (Except.error Ecode.NoFreeSpace, r)
      else if (scan qty (maxIndex N) 0 [] r).1.length ≠ qty then
        (Except.error Ecode.InternalLogicError, (scan qty (maxIndex N) 0 [] r).2)
      else (Except.ok (scan qty (maxIndex N) 0 [] r).1, (scan qty (maxIndex N) 0 [] r).2) := rfl

/-- C9: `fetch` is not atomic on its defensive-check failure path.  Whenever
the call returns `InternalLogicError`, every index of the scanned range
`[0, maxIndex N)` ends up marked used in the post-state and the counter has
absorbed one increment per free index of that range; in particular
`fetch(0)` on a registry with at least one free index in the scanned range
takes exactly this failure path. -/
theorem c9_fetch_error_path_marks_scanned_free (N qty : Nat) (r : Reg)
    (hlen : r.data.length = dataSize N) (hctr : r.inUse < W32) :
    ((snakeFetch N r qty).1 = Except.error Ecode.InternalLogicError →
      (∀ j, j < maxIndex N → isInUse ((snakeFetch N r qty).2).data j = true) ∧
      ((snakeFetch N r qty).2).inUse =
        (r.inUse + countFreeRange r 0 (maxIndex N)) % W32)
    ∧ ((∃ j, j < maxIndex N ∧ isInUse r.data j = false) → qty = 0 →
      (snakeFetch N r qty).1 = Except.error Ecode.InternalLogicError) := by
  rw [snakeFetch_eq]
  by_cases hpre : qty ≤ stSub N r.inUse
  · rw [if_neg (not_not_intro hpre)]
    by_cases hne : (scan qty (maxIndex N) 0 [] r).1.length ≠ qty
    · rw [if_pos hne]
      constructor
      · intro _
        constructor
        · intro j hj
          have hdiv : j / bitsPerInt < r.data.length := by
            have h1 : j / bitsPerInt ≤ j := Nat.div_le_self j bitsPerInt
            have h2 : maxIndex N ≤ dataSize N := Nat.min_le_left _ _
            omega
          exact scan_no_break_marks qty (maxIndex N) 0 [] r hne j (Nat.zero_le j)
            (by omega) hdiv
        · show ((scan qty (maxIndex N) 0 [] r).2).inUse = _
          rw [scan_inUse qty (maxIndex N) 0 [] r hctr,
            scan_no_break_count qty (maxIndex N) 0 [] r hne]
          simp
      · intro _ _
        rfl
    · rw [if_neg hne]
      constructor
      · intro habs
        exact absurd habs (by simp)
      · intro hex hq
        subst hq
        rw [Decidable.not_not] at hne
        have hpos : 0 < countFreeRange r 0 (maxIndex N) := by
          rcases hex with ⟨j, hj, hfree⟩
          exact countFreeRange_pos r (maxIndex N) 0 ⟨j, Nat.zero_le j, by omega, hfree⟩
        have hcount := scan_qty_zero_count (maxIndex N) 0 [] r
        rw [hne] at hcount
        simp only [List.length_nil, Nat.zero_add] at hcount
        omega
  · rw [if_pos hpre]
    constructor
    · intro habs
      exact absurd habs (by simp)
    · intro _ hq
      subst hq
      exact absurd (Nat.zero_le _) hpre

/-- Witness for C9 at a concrete input: capacity 1, fresh registry (bit 0
free), `fetch(0)` fails with `InternalLogicError` and leaves bit 0 used. -/
theorem c9_fetch_error_path_marks_scanned_free_witness :
    (Reg.mk [0] 0).data.length = dataSize 1 ∧ (Reg.mk [0] 0).inUse < W32 ∧
    (snakeFetch 1 (Reg.mk [0] 0) 0).1 = Except.error Ecode.InternalLogicError ∧
    isInUse ((snakeFetch 1 (Reg.mk [0] 0) 0).2).data 0 = true := by
  have h := c9_fetch_error_path_marks_scanned_free 1 0 (Reg.mk [0] 0)
    (by decide) (by decide)
  have herr : (snakeFetch 1 (Reg.mk [0] 0) 0).1 = Except.error Ecode.InternalLogicError :=
    h.2 ⟨0, by decide, by decide⟩ rfl
  exact ⟨by decide, by decide, herr, (h.1 herr).1 0 (by decide)⟩
